import Mathlib

/-!
Verification development for the `ncbi-blast-db.py` mirror script.

The Python source is shallowly embedded: pure fragments become Lean
functions, stateful fragments pass an explicit state (an association list
modelling the file system, a record modelling the thread queue), and the
external collaborators (the MD5 digest, the FTP fetch, the `tar` unpack)
become function parameters, exactly as the spec treats them as abstract
capabilities.
-/

namespace NcbiBlastDb

/-- A work / finished item `(target path, expected hash)`, as built in
`NCBI_BlastMirror.sync` (line 203 of the source). -/
abbrev Item := String × String

/-- Association-list lookup, modelling Python `d[k]` / `k in d` on a dict
represented as a list of key-value pairs (first binding wins). -/
def lookupAL : List (String × String) → String → Option String
  | [], _ => none
  | (k, v) :: rest, key => if k = key then some v else lookupAL rest key

/-- Association-list update, modelling Python `d[k] = v`: replaces the first
binding of `k`, or appends a new binding at the end. -/
def setAL : List (String × String) → String → String → List (String × String)
  | [], key, val => [(key, val)]
  | (k, v) :: rest, key, val =>
    if k = key then (key, val) :: rest else (k, v) :: setAL rest key val

/-- Association-list removal, modelling `os.unlink` on the file-system map. -/
def removeAL : List (String × String) → String → List (String × String)
  | [], _ => []
  | (k, v) :: rest, key => if k = key then removeAL rest key else (k, v) :: removeAL rest key

/-- The keys of an association list (Python `d.keys()`). -/
def keysOf (m : List (String × String)) : List String := m.map Prod.fst

/-! ## ThreadQueue (source lines 17-56)

`ThreadQueue` guards a Python list with a single `threading.Condition`.
`enque` inserts at index 0 and `deque` pops from the end, so the queue is
FIFO.  The model below records the queue contents, the `_join` flag, and
whether the condition lock is held by a thread that returned from `deque`
without releasing it — `deque` line 27 (`return None`) exits while still
holding the lock acquired at line 24, and no other thread can ever acquire
it afterwards. -/

structure TQ where
  que : List Item
  joined : Bool
  lockHeld : Bool
  deriving DecidableEq, Repr

/-- Outcome of one `ThreadQueue.deque` call by a thread that does not
already own the condition lock. -/
inductive DequeRes where
  /-- Returned a work item (lines 29-31). -/
  | item : Item → DequeRes
  /-- Returned `None`, the sentinel (line 27). -/
  | sentinel : DequeRes
  /-- Blocked in `self.que_cv.wait()` (line 28). -/
  | waits : DequeRes
  /-- Blocked forever in `self.que_cv.acquire()` (line 24): the lock is held
  by a thread that already returned and will never release it. -/
  | blockedForever : DequeRes
  /-- Raised `IndexError` from `self.que.pop()` on an empty list (line 29),
  leaving the lock held. -/
  | indexError : DequeRes
  deriving DecidableEq, Repr

/-- One `ThreadQueue.deque` call (source lines 23-31), by a thread that does
not currently hold the condition lock.  Pops from the end of `que` (Python
`list.pop()`); on the empty-and-joined path it returns the sentinel without
executing `self.que_cv.release()`, so the resulting state keeps `lockHeld`. -/
def deque (s : TQ) : DequeRes × TQ :=
  if s.lockHeld then (DequeRes.blockedForever, s)
  else if h : s.que = [] then
    if s.joined then (DequeRes.sentinel, { s with lockHeld := true })
    else (DequeRes.waits, s)
  else
    (DequeRes.item (s.que.getLast h), { s with que := s.que.dropLast })

/-- Resumption of a thread that was blocked in `wait()` (line 28) and has
been woken by `join`'s `notify_all` (line 42): it reacquires the lock and
immediately executes `item = self.que.pop()` (line 29) without re-checking
emptiness, raising `IndexError` — with the lock still held — when the queue
is still empty. -/
def wakeFromWait (s : TQ) : DequeRes × TQ :=
  if s.lockHeld then (DequeRes.blockedForever, s)
  else if h : s.que = [] then (DequeRes.indexError, { s with lockHeld := true })
  else (DequeRes.item (s.que.getLast h), { s with que := s.que.dropLast })

/-- Model of `ThreadQueue.join` (source lines 39-43): sets `_join` and notifies all
waiters. -/
def tqJoin (s : TQ) : TQ := { s with joined := true }

/-- The consumption order of the finished queue as observed by
`NCBI_BlastMirror.sync` lines 206-214: `ThreadQueue.__iter__` (lines 51-56)
repeatedly deques and stops at the first `None`.  The argument is the
arrival order of the finished queue (`none` is a worker's sentinel posted at
line 72); the result is the list of items the drain actually consumes. -/
def drainFinished : List (Option Item) → List Item
  | [] => []
  | none :: _ => []
  | some it :: rest => it :: drainFinished rest

/-! ## DownloadThread.download (source lines 74-103)

The file system is an association list `path → content`; the MD5 digest is
an abstract function `hash : String → String`; the FTP stream for the work
item is the abstract `fetched` content.  `download` hashes the existing
target file if any (lines 76-85), otherwise streams the remote content to
`target + "_download"` while hashing it (lines 86-96), deletes the download
on a hash mismatch when the expected hash is non-empty (lines 97-101), and
otherwise renames it onto `target` (line 102). -/

structure DLRes where
  /-- The boolean returned by `download`. -/
  ok : Bool
  /-- The file system after the call. -/
  fs : List (String × String)
  /-- Whether a network fetch (`retrbinary`, line 96) was performed. -/
  fetchedNet : Bool
  deriving DecidableEq, Repr

def download (hash : String → String) (fs : List (String × String))
    (fetched : String) (target expected : String) : DLRes :=
  let preHit : Bool :=
    match lookupAL fs target with
    | some c => hash c = expected
    | none => false
  if preHit then ⟨true, fs, false⟩
  else
    let temp := target ++ "_download"
    let fs1 := setAL fs temp fetched
    if expected ≠ "" ∧ hash fetched ≠ expected then
      ⟨false, removeAL fs1 temp, true⟩
    else
      ⟨true, setAL (removeAL fs1 temp) target fetched, true⟩

/-- Model of `DownloadThread.run` (source lines 66-72) for one worker: processes its
work items in order, pushes each item whose `download` returned `True` to
the finished queue, and finally pushes the sentinel `None`.  `fetch` gives
the remote content streamed for each target.  Returns the worker's pushes
to the finished queue (in order) and the final file system. -/
def workerRun (hash : String → String) (fetch : String → String) :
    List Item → List (String × String) → List (Option Item) × List (String × String)
  | [], fs => ([none], fs)
  | (target, expected) :: rest, fs =>
    let r := download hash fs (fetch target) target expected
    let (out, fs') := workerRun hash fetch rest r.fs
    (if r.ok then some (target, expected) :: out else out, fs')

/-! ## Installer: the drain loop of sync (source lines 206-214)

For each `(target, local_hash)` consumed from the finished queue, `sync`
unpacks the archive and, on success, sets
`local_hashmap[filename] = remote_hashmap[filename]`, writes the whole local
hashmap to disk (`write_local_hashmap`), and finally unlinks the archive.
The loop body is embedded as a function emitting the primitive effects in
source order, so temporal claims become statements about the emitted
trace. -/

/-- Python `os.path.split(target)[-1]`: the part after the last `/`. -/
def basename (s : String) : String :=
  String.mk ((s.toList.reverse.takeWhile (fun c => c ≠ '/')).reverse)

/-- A primitive effect of the sync drain loop. -/
inductive Ev where
  /-- Python `self.install(target)` returned the given boolean (line 208). -/
  | unpack : String → Bool → Ev
  /-- Python `self.local_hashmap[filename] = ...` (line 212). -/
  | setEntry : String → String → Ev
  /-- Python `self.write_local_hashmap(self.local_hashmap)` (line 213), recording
  the manifest contents that were persisted. -/
  | persist : List (String × String) → Ev
  /-- Python `os.unlink(target)` (line 214). -/
  | deleteArchive : String → Ev
  /-- Python `self.remote_hashmap[filename]` raised `KeyError` (line 212). -/
  | keyError : String → Ev
  deriving DecidableEq, Repr

/-- One iteration of the drain loop in `sync` (source lines 206-214) for a
consumed item with path `target`.  `unpackOk` is the abstract unpack
capability (`install`, lines 241-249); `remote` is `self.remote_hashmap`;
`localM` is `self.local_hashmap`.  Returns the emitted effects in source
order and the local hashmap after the iteration. -/
def installItem (unpackOk : String → Bool) (remote localM : List (String × String))
    (target : String) : List Ev × List (String × String) :=
  let filename := basename target
  if unpackOk target then
    match lookupAL remote filename with
    | some h =>
      let m' := setAL localM filename h
      ([Ev.unpack target true, Ev.setEntry filename h, Ev.persist m',
        Ev.deleteArchive target], m')
    | none => ([Ev.unpack target true, Ev.keyError filename], localM)
  else
    ([Ev.unpack target false], localM)

/-- The full drain loop of `sync` over the consumed finished items. -/
def syncDrain (unpackOk : String → Bool) (remote : List (String × String)) :
    List Item → List (String × String) → List Ev × List (String × String)
  | [], m => ([], m)
  | (target, _) :: rest, m =>
    let (evs, m') := installItem unpackOk remote m target
    let (evs', m'') := syncDrain unpackOk remote rest m'
    (evs ++ evs', m'')

/-- A one-worker run of the whole fetch-install pipeline of `sync`: the
worker processes the work items, the coordinator drains the finished queue
(stopping at the first sentinel) and installs what it consumed.  Returns
the final file system, the final local hashmap, and the install trace. -/
def pipeline1 (hash fetch : String → String) (unpackOk : String → Bool)
    (works : List Item) (fs : List (String × String))
    (localM remote : List (String × String)) :
    List (String × String) × List (String × String) × List Ev :=
  let (outs, fs') := workerRun hash fetch works fs
  let consumed := drainFinished outs
  let (evs, m') := syncDrain unpackOk remote consumed localM
  (fs', m', evs)

/-! ## Manifest diff (source lines 175-184)

`manifest()` iterates over the keys of the remote hashmap; a key whose local
hash equals its remote hash is skipped (deleting a stale staged archive as a
side effect), every other key is yielded. -/

/-- The skip condition of the loop in `manifest()` (source line 179):
`fn in self.local_hashmap and self.local_hashmap[fn] == self.remote_hashmap[fn]`. -/
def sameHash (localM remoteM : List (String × String)) (fn : String) : Bool :=
  match lookupAL localM fn, lookupAL remoteM fn with
  | some lv, some rv => lv = rv
  | _, _ => false

/-- The loop of `NCBI_BlastMirror.manifest` (source lines 178-184) over the
remote keys: collects the yielded artifact names and the stale staged
archives it unlinks.  `fsExists` models `os.path.exists` on the staging
directory; `archiveJoin fn` models `os.path.join(self.archive_dir, fn)`. -/
def manifestLoop (archiveJoin : String → String) (fsExists : String → Bool)
    (localM remoteM : List (String × String)) : List String → List String × List String
  | [] => ([], [])
  | fn :: rest =>
    let acc := manifestLoop archiveJoin fsExists localM remoteM rest
    if sameHash localM remoteM fn then
      if fsExists (archiveJoin fn) then (acc.1, archiveJoin fn :: acc.2) else acc
    else (fn :: acc.1, acc.2)

def manifestGen (archiveJoin : String → String) (fsExists : String → Bool)
    (localM remoteM : List (String × String)) : List String × List String :=
  manifestLoop archiveJoin fsExists localM remoteM (remoteM.map Prod.fst)

/-- The yielded names of `manifest()`, the part the diff claims are about. -/
def manifestNames (localM remoteM : List (String × String)) : List String :=
  (manifestGen id (fun _ => false) localM remoteM).1

/-! ## Include / exclude filter (source lines 216-221) and fnmatch

`filter_dblist` keeps the names matching at least one include pattern and no
exclude pattern.  `fnmatch.fnmatch` is stdlib; it is modelled here as
shell-style glob matching with `*` (any sequence) and `?` (any single
character) plus literal characters — the constructs the configuration
patterns of this program use. -/

/-- Shell-style glob matching on character lists: `*` matches any sequence,
`?` any single character, anything else itself.  Model of `fnmatch.fnmatch`
as used at source line 218 (the configuration patterns of this program use
only `*` wildcards and literals; character classes are not modelled). -/
def globMatchL : List Char → List Char → Bool
  | [], s => s.isEmpty
  | p :: ps, s =>
    if p = '*' then s.tails.any (fun t => globMatchL ps t)
    else
      match s with
      | [] => false
      | c :: s' => (p = '?' || p = c) && globMatchL ps s'

def fnmatch (name pattern : String) : Bool :=
  globMatchL pattern.toList name.toList

/-- The `match` helper inside `filter_dblist` (source lines 217-218). -/
def matchAny (dbname : String) (patterns : List String) : Bool :=
  patterns.any (fun p => fnmatch dbname p)

/-- The `filter_rule` predicate inside `filter_dblist` (source lines 219-220). -/
def filter_rule (inc exc : List String) (dbname : String) : Bool :=
  matchAny dbname inc && !matchAny dbname exc

/-- Model of `NCBI_BlastMirror.filter_dblist` (source lines 216-221). -/
def filter_dblist (inc exc : List String) (dblist : List String) : List String :=
  dblist.filter (filter_rule inc exc)

/-! ## Remote catalog (source lines 158-173)

`load_remote_hashmap` lists the remote directory, keeps the entries ending
in `.md5`, filters the set of their first-dot prefixes (`fn.split('.')[0]`)
through `filter_dblist`, and downloads exactly the descriptors whose prefix
survived the filter. -/

/-- Python `fn.split('.')[0]`: the prefix of `fn` before its first dot. -/
def dotHead (fn : String) : String :=
  String.mk (fn.toList.takeWhile (fun c => c ≠ '.'))

/-- Python `fn.endswith(".md5")` (source line 160), as a suffix test on the
character list. -/
def endsWithMd5 (fn : String) : Bool :=
  ".md5".toList.isSuffixOf fn.toList

/-- The descriptor entries of the remote listing (names ending in `.md5`),
source line 160. -/
def md5Entries (nlst : List String) : List String :=
  nlst.filter endsWithMd5

/-- The deduplicated first-dot-prefix set `dblist` (source line 161). -/
def dbListOf (nlst : List String) : List String :=
  (md5Entries nlst).map dotHead |>.dedup

/-- The descriptor entries whose content `load_remote_hashmap` actually
fetches via `download_hash` (source lines 166-172): those `.md5` entries
whose first-dot prefix is in the filtered `dblist`. -/
def fetchedDescriptors (inc exc : List String) (nlst : List String) : List String :=
  (md5Entries nlst).filter
    (fun fn => (filter_dblist inc exc (dbListOf nlst)).contains (dotHead fn))

/-- Modelled from the spec: the artifact name as the spec describes it for
the catalog filter — "the entry name with the descriptor suffix stripped",
the suffix being `.md5`.  This is the comparison definition for the
refinement claim about which name the filter tests; the source itself uses
`fn.split('.')[0]` instead. -/
def specArtifactName (fn : String) : String :=
  String.mk (fn.toList.take (fn.toList.length - ".md5".length))

/-! ## HashMap store (source lines 138-156)

`write_local_hashmap` sorts the keys and writes one `name␣␣hash\n` line per
key; `load_local_hashmap` reads the file line by line, strips each line and
splits it on runs of whitespace into exactly two tokens.  Strings are
processed as character lists; `String.mk`/`String.toList` mediate. -/

/-- Python's `\s` class: space, tab, newline, carriage return, vertical tab,
form feed. -/
def isWsChar (c : Char) : Bool :=
  c = Char.ofNat 32 || c = Char.ofNat 9 || c = Char.ofNat 10 ||
  c = Char.ofNat 13 || c = Char.ofNat 11 || c = Char.ofNat 12

/-- Python `str.strip()`: remove leading and trailing whitespace. -/
def stripL (l : List Char) : List Char :=
  ((l.dropWhile isWsChar).reverse.dropWhile isWsChar).reverse

/-- The fields produced by `re.split("\\s+", s)` on a string with no leading
or trailing whitespace: the maximal whitespace-free runs. -/
def tokens : List Char → List (List Char)
  | [] => []
  | c :: cs =>
    if isWsChar c then tokens cs
    else (c :: cs.takeWhile (fun x => !isWsChar x)) :: tokens (cs.dropWhile (fun x => !isWsChar x))
  termination_by l => l.length
  decreasing_by
  · simp only [List.length_cons]; omega
  · simp only [List.length_cons]
    exact Nat.lt_succ_of_le (List.dropWhile_suffix _).length_le

/-- The newline-separated segments of a character list; a trailing newline
yields a final empty segment. -/
def splitNl : List Char → List (List Char)
  | [] => [[]]
  | c :: cs =>
    if c = Char.ofNat 10 then [] :: splitNl cs
    else
      match splitNl cs with
      | [] => [[c]]
      | l :: ls => (c :: l) :: ls

/-- Python file-line iteration (`for line in fh`): the newline-separated
segments, without a final empty segment after a trailing newline.  (The
terminating newlines themselves are dropped; the parser strips each line
anyway.) -/
def pyLines (content : List Char) : List (List Char) :=
  let segs := splitNl content
  if segs.getLast? = some [] then segs.dropLast else segs

/-- One line of `load_local_hashmap` (source line 144):
`(filename, md5hash) = self.re_whitespace.split(line.strip())` — `none`
models the `ValueError` raised when the split does not yield exactly two
fields. -/
def parseLine (l : List Char) : Option (String × String) :=
  match tokens (stripL l) with
  | [a, b] => some (String.mk a, String.mk b)
  | _ => none

/-- Model of `NCBI_BlastMirror.load_local_hashmap` (source lines 138-146) applied to
the file content: parse every line, building the dict in order; `none`
models an uncaught parse exception. -/
def loadChars (content : List Char) : Option (List (String × String)) :=
  (pyLines content).foldlM
    (fun m l => (parseLine l).map (fun p => setAL m p.1 p.2)) []

def load_local_hashmap (s : String) : Option (List (String × String)) :=
  loadChars s.toList

/-- Python `fnlist = hashmap.keys(); fnlist.sort()` (source lines 149-150). -/
def sortedKeys (m : List (String × String)) : List String :=
  List.insertionSort (fun a b => a ≤ b) (keysOf m)

/-- Python `hashmap[fn]` for a key known to be present (source line 153). -/
def lookupD (m : List (String × String)) (k : String) : String :=
  (lookupAL m k).getD ""

/-- The body of one output line: `name`, two spaces, `hash`. -/
def lineCore (m : List (String × String)) (fn : String) : List Char :=
  fn.toList ++ [Char.ofNat 32, Char.ofNat 32] ++ (lookupD m fn).toList

/-- One output line `"%s  %s\n" % (fn, md5hash)` (source line 154). -/
def lineOf (m : List (String × String)) (fn : String) : List Char :=
  lineCore m fn ++ [Char.ofNat 10]

/-- The file content written by `write_local_hashmap` (source lines
148-156). -/
def saveChars (m : List (String × String)) : List Char :=
  ((sortedKeys m).map (lineOf m)).flatten

def write_local_hashmap (m : List (String × String)) : String :=
  String.mk (saveChars m)

/-! ## Association-list lemmas -/

theorem keysOf_cons (p : String × String) (rest : List (String × String)) :
    keysOf (p :: rest) = p.1 :: keysOf rest := rfl

theorem lookupAL_setAL_self (m : List (String × String)) (k v : String) :
    lookupAL (setAL m k v) k = some v := by
  induction m with
  | nil => simp [setAL, lookupAL]
  | cons p rest ih =>
    by_cases h : p.1 = k
    · simp [setAL, h, lookupAL]
    · simp [setAL, h, lookupAL, ih]

theorem lookupAL_setAL_ne (m : List (String × String)) (k v k' : String) (h : k ≠ k') :
    lookupAL (setAL m k v) k' = lookupAL m k' := by
  induction m with
  | nil => simp [setAL, lookupAL, h]
  | cons p rest ih =>
    by_cases hp : p.1 = k
    · simp [setAL, hp, lookupAL, h, hp ▸ h]
    · simp [setAL, hp, lookupAL, ih]

theorem lookupAL_removeAL_self (m : List (String × String)) (k : String) :
    lookupAL (removeAL m k) k = none := by
  induction m with
  | nil => simp [removeAL, lookupAL]
  | cons p rest ih =>
    by_cases hp : p.1 = k
    · simp [removeAL, hp, ih]
    · simp [removeAL, hp, lookupAL, ih]

theorem lookupAL_removeAL_ne (m : List (String × String)) (k k' : String) (h : k ≠ k') :
    lookupAL (removeAL m k) k' = lookupAL m k' := by
  induction m with
  | nil => simp [removeAL]
  | cons p rest ih =>
    by_cases hp : p.1 = k
    · have hne : p.1 ≠ k' := by rw [hp]; exact h
      simp [removeAL, hp, lookupAL, hne, h, ih]
    · simp [removeAL, hp, lookupAL, ih]

theorem lookupAL_isSome_of_mem_keys (m : List (String × String)) (k : String)
    (h : k ∈ keysOf m) : ∃ v, lookupAL m k = some v := by
  induction m with
  | nil => simp [keysOf] at h
  | cons p rest ih =>
    by_cases hp : p.1 = k
    · exact ⟨p.2, by simp [lookupAL, hp]⟩
    · have h' : k = p.1 ∨ k ∈ keysOf rest := by
        have hm : k ∈ p.1 :: keysOf rest := by rw [← keysOf_cons]; exact h
        exact List.mem_cons.mp hm
      rcases h' with h' | h'
      · exact absurd h'.symm hp
      · obtain ⟨v, hv⟩ := ih h'
        exact ⟨v, by simp [lookupAL, hp, hv]⟩

theorem lookupAL_eq_none_of_not_mem_keys (m : List (String × String)) (k : String)
    (h : k ∉ keysOf m) : lookupAL m k = none := by
  induction m with
  | nil => simp [lookupAL]
  | cons p rest ih =>
    rw [keysOf_cons] at h
    have hne : p.1 ≠ k := by
      intro e
      exact h (e ▸ List.mem_cons_self _ _)
    have hrest : k ∉ keysOf rest := fun hm => h (List.mem_cons_of_mem _ hm)
    simp [lookupAL, hne, ih hrest]

theorem mem_keys_of_lookupAL (m : List (String × String)) (k : String) (v : String)
    (h : lookupAL m k = some v) : k ∈ keysOf m := by
  by_contra hk
  rw [lookupAL_eq_none_of_not_mem_keys m k hk] at h
  exact Option.noConfusion h

/-- A path is never equal to its own temporary download sibling. -/
theorem ne_append_download (t : String) : t ≠ t ++ "_download" := by
  intro h
  have hlen := congrArg String.length h
  rw [String.length_append] at hlen
  have h9 : ("_download" : String).length = 9 := rfl
  omega

/-! ## Claim C1 and C2: queue close and drain -/

/-- Claim C2 (code bug).  Evaluation of the work-queue model at the failing
input: on a drained queue after `join`, the first `deque` returns the
sentinel but leaves the condition lock held (source line 27 returns without
`release`), so the next `deque` by any other worker blocks forever in
`acquire`; and a waiter woken by `join`'s `notify_all` runs
`self.que.pop()` on the empty list and raises `IndexError` instead of
returning the sentinel.  The claim that every blocked or future dequeue
returns the sentinel after close is therefore false of the code. -/
theorem c2_close_leaves_lock_held :
    deque ⟨[], true, false⟩ = (DequeRes.sentinel, ⟨[], true, true⟩) ∧
    deque ⟨[], true, true⟩ = (DequeRes.blockedForever, ⟨[], true, true⟩) ∧
    wakeFromWait ⟨[], true, false⟩ = (DequeRes.indexError, ⟨[], true, true⟩) :=
  ⟨rfl, rfl, rfl⟩

/-- Claim C1 (code bug).  Evaluation of the finished-queue drain at the
failing arrival order: with two workers, worker A posts its sentinel before
worker B posts its finished item, and the drain of `sync` (via
`ThreadQueue.__iter__`, which breaks at the first `None`) consumes only the
item before the first sentinel — B's item is left unconsumed and never
installed, although the trace contains one sentinel per worker. -/
theorem c1_drain_stops_at_first_sentinel :
    drainFinished
        [some ("arch/nr.tar.gz", "h1"), none, some ("arch/nt.tar.gz", "h2"), none] =
      [("arch/nr.tar.gz", "h1")] ∧
    List.count (none : Option Item)
        [some ("arch/nr.tar.gz", "h1"), none, some ("arch/nt.tar.gz", "h2"), none] = 2 ∧
    ("arch/nt.tar.gz", "h2") ∉
      drainFinished
        [some ("arch/nr.tar.gz", "h1"), none, some ("arch/nt.tar.gz", "h2"), none] := by
  refine ⟨rfl, rfl, ?_⟩
  decide

/-! ## Claim C9: filter semantics -/

/-- Claim C9.  A name qualifies under `filter_dblist` iff it matches at least
one include pattern and no exclude pattern; a name matching no include
pattern is rejected whatever the exclude list is. -/
theorem c9_filter_qualifies_iff (inc exc : List String) (name : String)
    (dblist : List String) :
    (filter_rule inc exc name = true ↔
      (∃ p ∈ inc, fnmatch name p = true) ∧ ∀ p ∈ exc, fnmatch name p = false) ∧
    (name ∈ filter_dblist inc exc dblist ↔
      name ∈ dblist ∧ filter_rule inc exc name = true) ∧
    ((∀ p ∈ inc, fnmatch name p = false) → filter_rule inc exc name = false) := by
  refine ⟨?_, ?_, ?_⟩
  · simp [filter_rule, matchAny, List.any_eq_true, Bool.not_eq_true']
  · simp [filter_dblist, List.mem_filter]
  · intro h
    simp [filter_rule, matchAny, List.any_eq_true]
    intro p hp hm
    rw [h p hp] at hm
    exact Bool.noConfusion hm

/-- Witness for C9 at the spec's own example: with include `*_prot*` and
exclude `*_old*`, the name `nr_prot` qualifies and `nr_prot_old` does
not. -/
theorem c9_witness :
    filter_rule ["*_prot*"] ["*_old*"] "nr_prot" = true ∧
    filter_rule ["*_prot*"] ["*_old*"] "nr_prot_old" = false := by
  constructor
  · exact (c9_filter_qualifies_iff ["*_prot*"] ["*_old*"] "nr_prot" []).1.mpr
      ⟨⟨"*_prot*", by decide, by decide⟩, by decide⟩
  · decide

/-! ## Claim C5: diff correctness -/

theorem mem_manifestLoop_fst (archiveJoin : String → String) (fsExists : String → Bool)
    (localM remoteM : List (String × String)) (ks : List String) (fn : String) :
    fn ∈ (manifestLoop archiveJoin fsExists localM remoteM ks).1 ↔
      fn ∈ ks ∧ sameHash localM remoteM fn = false := by
  induction ks with
  | nil => simp [manifestLoop]
  | cons k rest ih =>
    by_cases hs : sameHash localM remoteM k
    · have hstep : (manifestLoop archiveJoin fsExists localM remoteM (k :: rest)).1 =
          (manifestLoop archiveJoin fsExists localM remoteM rest).1 := by
        by_cases he : fsExists (archiveJoin k) <;> simp [manifestLoop, hs, he]
      rw [hstep, ih]
      constructor
      · exact fun h => ⟨List.mem_cons_of_mem _ h.1, h.2⟩
      · rintro ⟨hm, hf⟩
        rcases List.mem_cons.mp hm with he' | hm'
        · subst he'
          rw [hs] at hf
          exact Bool.noConfusion hf
        · exact ⟨hm', hf⟩
    · have hstep : (manifestLoop archiveJoin fsExists localM remoteM (k :: rest)).1 =
          k :: (manifestLoop archiveJoin fsExists localM remoteM rest).1 := by
        simp [manifestLoop, hs]
      rw [hstep]
      rw [Bool.not_eq_true] at hs
      constructor
      · intro hm
        rcases List.mem_cons.mp hm with he' | hm'
        · subst he'
          exact ⟨List.mem_cons_self _ _, hs⟩
        · have h' := ih.mp hm'
          exact ⟨List.mem_cons_of_mem _ h'.1, h'.2⟩
      · rintro ⟨hm, hf⟩
        rcases List.mem_cons.mp hm with he' | hm'
        · exact he' ▸ List.mem_cons_self _ _
        · exact List.mem_cons_of_mem _ (ih.mpr ⟨hm', hf⟩)

theorem sameHash_eq_false_iff (localM remoteM : List (String × String)) (fn : String) :
    sameHash localM remoteM fn = false ↔
      ∀ rv, lookupAL remoteM fn = some rv → lookupAL localM fn ≠ some rv := by
  constructor
  · intro h rv hrv hlv
    unfold sameHash at h
    rw [hlv, hrv] at h
    simp at h
  · intro h
    unfold sameHash
    rcases hr : lookupAL remoteM fn with _ | rv
    · rcases hl : lookupAL localM fn with _ | lv <;> simp
    · rcases hl : lookupAL localM fn with _ | lv
      · simp
      · have hne : lv ≠ rv := fun e => h rv hr (e ▸ hl)
        simp [hne]

/-- Claim C5.  `manifest()` yields exactly the artifact names present in the
remote hashmap whose hash differs from the local entry or which are absent
locally; a name whose local and remote hashes agree is never yielded. -/
theorem c5_diff_yields_exactly_changed (localM remoteM : List (String × String))
    (fn : String) :
    fn ∈ manifestNames localM remoteM ↔
      ∃ h, lookupAL remoteM fn = some h ∧ lookupAL localM fn ≠ some h := by
  unfold manifestNames manifestGen
  rw [mem_manifestLoop_fst, sameHash_eq_false_iff]
  constructor
  · rintro ⟨hm, hf⟩
    obtain ⟨rv, hrv⟩ := lookupAL_isSome_of_mem_keys remoteM fn hm
    exact ⟨rv, hrv, hf rv hrv⟩
  · rintro ⟨rv, hrv, hne⟩
    refine ⟨mem_keys_of_lookupAL remoteM fn rv hrv, ?_⟩
    intro rv' hrv'
    rw [hrv] at hrv'
    cases hrv'
    exact hne

/-- Witness for C5: with a stale local hash `hX` against remote `h1`, the
artifact `a` is yielded by the diff. -/
theorem c5_witness :
    "a" ∈ manifestNames [("a", "hX")] [("a", "h1")] :=
  (c5_diff_yields_exactly_changed [("a", "hX")] [("a", "h1")] "a").mpr
    ⟨"h1", by decide, by decide⟩

/-! ## Claim C10: empty expected hash skips verification -/

/-- Claim C10.  When the expected hash is the empty string, `download` always
reports success — the mismatch branch (source line 97) is unreachable
because `if filename_hash and ...` is false for the empty string — and,
whenever the fetch path is taken, the temporary file is unconditionally
renamed onto the target, whatever the fetched content's digest is. -/
theorem c10_empty_hash_unconditional_success (hash : String → String)
    (fs : List (String × String)) (fetched target : String)
    (hmiss : ∀ c, lookupAL fs target = some c → hash c ≠ "") :
    (download hash fs fetched target "").ok = true ∧
    (download hash fs fetched target "").fetchedNet = true ∧
    lookupAL (download hash fs fetched target "").fs target = some fetched ∧
    lookupAL (download hash fs fetched target "").fs (target ++ "_download") = none := by
  have hpre : (match lookupAL fs target with
      | some c => decide (hash c = "")
      | none => false) = false := by
    rcases hl : lookupAL fs target with _ | c
    · rfl
    · simp [hmiss c hl]
  unfold download
  simp only [hpre]
  have hne := ne_append_download target
  simp [lookupAL_setAL_self, lookupAL_setAL_ne _ target fetched _ hne,
    lookupAL_removeAL_self]

/-- Witness for C10: fetching content whose digest is `"H"` against an empty
expected hash succeeds and installs the fetched bytes at the target. -/
theorem c10_witness :
    (download (fun _ => "H") [] "body" "t" "").ok = true ∧
    (download (fun _ => "H") [] "body" "t" "").fetchedNet = true ∧
    lookupAL (download (fun _ => "H") [] "body" "t" "").fs "t" = some "body" ∧
    lookupAL (download (fun _ => "H") [] "body" "t" "").fs ("t" ++ "_download") = none :=
  c10_empty_hash_unconditional_success (fun _ => "H") [] "body" "t"
    (fun c hc => by simp [lookupAL] at hc)

/-! ## Claim C6: idempotent re-run -/

/-- Claim C6.  If a file already exists at the target and its content hash
equals the expected hash, `download` reports success with no network fetch
and no file-system change; and a local hashmap that agrees with the remote
hashmap on every remote entry makes the diff empty, so a second sync run
with an unchanged remote enqueues no work and performs zero downloads. -/
theorem c6_existing_correct_file_skips_fetch (hash : String → String)
    (fs : List (String × String)) (target expected c : String)
    (hex : lookupAL fs target = some c) (hh : hash c = expected) :
    (∀ fetched, download hash fs fetched target expected = ⟨true, fs, false⟩) ∧
    (∀ localM remoteM : List (String × String),
      (∀ fn h, lookupAL remoteM fn = some h → lookupAL localM fn = some h) →
      manifestNames localM remoteM = []) := by
  constructor
  · intro fetched
    unfold download
    simp [hex, hh]
  · intro localM remoteM hcov
    rw [List.eq_nil_iff_forall_not_mem]
    intro fn hm
    unfold manifestNames manifestGen at hm
    rw [mem_manifestLoop_fst, sameHash_eq_false_iff] at hm
    obtain ⟨hmem, hf⟩ := hm
    obtain ⟨rv, hrv⟩ := lookupAL_isSome_of_mem_keys remoteM fn hmem
    exact (hf rv hrv) (hcov fn rv hrv)

/-- Witness for C6: a target whose on-disk content hashes to the expected
value is skipped with zero fetches, and an up-to-date manifest diffs to
nothing. -/
theorem c6_witness :
    download (fun _ => "H") [("t", "x")] "body" "t" "H" = ⟨true, [("t", "x")], false⟩ ∧
    manifestNames [("a", "h1")] [("a", "h1")] = [] := by
  have h := c6_existing_correct_file_skips_fetch (fun _ => "H") [("t", "x")] "t" "H" "x"
    (by simp [lookupAL]) rfl
  refine ⟨h.1 "body", h.2 [("a", "h1")] [("a", "h1")] ?_⟩
  intro fn hh hl
  exact hl

/-! ## Claim C3: hash mismatch is never installed -/

/-- The mismatch outcome of `download` (source lines 97-101). -/
theorem download_mismatch_eq (hash : String → String)
    (fs : List (String × String)) (fetched target expected : String)
    (hne : expected ≠ "") (hmis : hash fetched ≠ expected)
    (hmiss : ∀ c, lookupAL fs target = some c → hash c ≠ expected) :
    download hash fs fetched target expected =
      ⟨false, removeAL (setAL fs (target ++ "_download") fetched) (target ++ "_download"),
        true⟩ := by
  have hpre : (match lookupAL fs target with
      | some c => decide (hash c = expected)
      | none => false) = false := by
    rcases hl : lookupAL fs target with _ | c
    · rfl
    · simp [hmiss c hl]
  unfold download
  simp [hpre, hne, hmis]

/-- Claim C3.  On a non-empty expected hash that differs from the digest of
the fetched bytes, `download` deletes the temporary file, reports failure
and leaves the target untouched; the worker pushes nothing to the finished
queue for that item, so the drain installs nothing and the local hashmap is
never updated with it. -/
theorem c3_mismatch_never_installed (hash : String → String)
    (fs : List (String × String)) (fetched target expected : String)
    (hne : expected ≠ "") (hmis : hash fetched ≠ expected)
    (hmiss : ∀ c, lookupAL fs target = some c → hash c ≠ expected) :
    (download hash fs fetched target expected).ok = false ∧
    lookupAL (download hash fs fetched target expected).fs (target ++ "_download") = none ∧
    lookupAL (download hash fs fetched target expected).fs target = lookupAL fs target ∧
    ∀ (unpackOk : String → Bool) (localM remote : List (String × String)),
      pipeline1 hash (fun _ => fetched) unpackOk [(target, expected)] fs localM remote =
        ((download hash fs fetched target expected).fs, localM, []) := by
  have hd := download_mismatch_eq hash fs fetched target expected hne hmis hmiss
  have hne' := ne_append_download target
  refine ⟨by rw [hd], ?_, ?_, ?_⟩
  · rw [hd]
    exact lookupAL_removeAL_self _ _
  · rw [hd]
    simp only
    rw [lookupAL_removeAL_ne _ _ _ (fun e => hne' e.symm),
      lookupAL_setAL_ne _ _ _ _ (fun e => hne' e.symm)]
  · intro unpackOk localM remote
    unfold pipeline1 workerRun
    rw [hd]
    simp [workerRun, drainFinished, syncDrain, hd]

/-- Witness for C3: fetching content with digest `Hbody` against expected
hash `X` fails, removes the temporary file, and the one-worker pipeline
installs nothing and leaves the manifest unchanged. -/
theorem c3_witness :
    (download (fun c => String.append "H" c) [] "body" "t" "X").ok = false ∧
    lookupAL (download (fun c => String.append "H" c) [] "body" "t" "X").fs
      ("t" ++ "_download") = none ∧
    lookupAL (download (fun c => String.append "H" c) [] "body" "t" "X").fs "t" =
      lookupAL [] "t" ∧
    pipeline1 (fun c => String.append "H" c) (fun _ => "body") (fun _ => true)
        [("t", "X")] [] [] [("t", "zz")] =
      ((download (fun c => String.append "H" c) [] "body" "t" "X").fs, [], []) := by
  have h := c3_mismatch_never_installed (fun c => String.append "H" c) [] "body" "t" "X"
    (by decide) (by decide) (fun c hc => by simp [lookupAL] at hc)
  exact ⟨h.1, h.2.1, h.2.2.1, h.2.2.2 (fun _ => true) [] [("t", "zz")]⟩

/-! ## Claim C4: which name the catalog filter tests -/

/-- Claim C4, counterexample.  The claim says the name tested against the
filter is the entry name with the descriptor suffix stripped, and that a
descriptor is fetched iff that name qualifies.  For the entry `a.b.md5`
the suffix-stripped name `a.b` qualifies under include `["a.b"]` with no
excludes, yet `load_remote_hashmap` fetches nothing: the code tests
`fn.split('.')[0]` — the prefix `a` before the *first* dot — which does not
match. -/
theorem c4_counterexample :
    filter_rule ["a.b"] [] (specArtifactName "a.b.md5") = true ∧
    fetchedDescriptors ["a.b"] [] ["a.b.md5"] = [] := by
  constructor
  · decide
  · decide

/-- Claim C4, amended.  The artifact name `load_remote_hashmap` tests against
the include/exclude filter is the entry name truncated at its *first* dot
(`fn.split('.')[0]`), and a descriptor's content is fetched iff the entry
ends in `.md5` and that first-dot prefix qualifies under the filter;
unqualified descriptors are never downloaded.  (When the artifact name
contains no interior dot this coincides with stripping the `.md5`
suffix.) -/
theorem c4_fetched_iff_dot_prefix_qualifies (inc exc : List String)
    (nlst : List String) (fn : String) :
    fn ∈ fetchedDescriptors inc exc nlst ↔
      fn ∈ nlst ∧ endsWithMd5 fn = true ∧ filter_rule inc exc (dotHead fn) = true := by
  unfold fetchedDescriptors
  rw [List.mem_filter]
  constructor
  · rintro ⟨hmem, hcont⟩
    have h1 := List.mem_filter.mp (show fn ∈ md5Entries nlst from hmem)
    have h2 : dotHead fn ∈ filter_dblist inc exc (dbListOf nlst) := by
      rwa [List.elem_iff] at hcont
    have h3 := List.mem_filter.mp h2
    exact ⟨h1.1, h1.2, h3.2⟩
  · rintro ⟨hmem, hmd5, hrule⟩
    have h1 : fn ∈ md5Entries nlst := List.mem_filter.mpr ⟨hmem, hmd5⟩
    refine ⟨h1, ?_⟩
    rw [List.elem_iff]
    refine List.mem_filter.mpr ⟨?_, hrule⟩
    unfold dbListOf
    exact List.mem_dedup.mpr (List.mem_map_of_mem _ h1)

/-- Witness for the amended C4: the descriptor `nr_prot.md5` is fetched
under include `*_prot*`, exclude `*_old*`. -/
theorem c4_witness :
    "nr_prot.md5" ∈ fetchedDescriptors ["*_prot*"] ["*_old*"] ["nr_prot.md5"] :=
  (c4_fetched_iff_dot_prefix_qualifies ["*_prot*"] ["*_old*"] ["nr_prot.md5"]
    "nr_prot.md5").mpr ⟨by decide, by decide, by decide⟩

/-! ## Claim C7: persist before archive delete -/

/-- Claim C7.  In the trace of the sync drain loop, every archive deletion is
preceded by a persist of a manifest that already contains the artifact's
entry with the expected (remote) hash, which is itself preceded by the
manifest update for that artifact: the deletion never comes before the
manifest write. -/
theorem c7_persist_before_delete (unpackOk : String → Bool)
    (remote : List (String × String)) (items : List Item)
    (localM : List (String × String)) (j : Nat) (target : String)
    (hj : (syncDrain unpackOk remote items localM).1[j]? =
      some (Ev.deleteArchive target)) :
    ∃ i i' m' h, i' < i ∧ i < j ∧
      (syncDrain unpackOk remote items localM).1[i]? = some (Ev.persist m') ∧
      (syncDrain unpackOk remote items localM).1[i']? =
        some (Ev.setEntry (basename target) h) ∧
      lookupAL remote (basename target) = some h ∧
      lookupAL m' (basename target) = some h := by
  induction items generalizing localM j with
  | nil => simp [syncDrain] at hj
  | cons it rest ih =>
    obtain ⟨t, lh⟩ := it
    cases hu : unpackOk t with
    | false =>
      have hinst : installItem unpackOk remote localM t = ([Ev.unpack t false], localM) := by
        simp [installItem, hu]
      have hstep : (syncDrain unpackOk remote ((t, lh) :: rest) localM).1 =
          [Ev.unpack t false] ++ (syncDrain unpackOk remote rest localM).1 := by
        simp [syncDrain, hinst]
      rw [hstep] at hj ⊢
      cases j with
      | zero => simp at hj
      | succ j =>
        rw [List.getElem?_append_right (by simp)] at hj
        simp only [List.length_singleton, Nat.add_sub_cancel] at hj
        obtain ⟨i, i', m', h, hii, hij, hp, hs, hr, hm⟩ := ih localM j hj
        refine ⟨i + 1, i' + 1, m', h, by omega, by omega, ?_, ?_, hr, hm⟩
        · rw [List.getElem?_append_right (by simp)]
          simpa using hp
        · rw [List.getElem?_append_right (by simp)]
          simpa using hs
    | true =>
      rcases hr0 : lookupAL remote (basename t) with _ | h0
      · have hinst : installItem unpackOk remote localM t =
            ([Ev.unpack t true, Ev.keyError (basename t)], localM) := by
          simp [installItem, hu, hr0]
        have hstep : (syncDrain unpackOk remote ((t, lh) :: rest) localM).1 =
            [Ev.unpack t true, Ev.keyError (basename t)] ++
              (syncDrain unpackOk remote rest localM).1 := by
          simp [syncDrain, hinst]
        rw [hstep] at hj ⊢
        rcases j with _ | _ | j
        · simp at hj
        · simp at hj
        · rw [List.getElem?_append_right (by simp)] at hj
          have hj' : (syncDrain unpackOk remote rest localM).1[j]? =
              some (Ev.deleteArchive target) := by simpa using hj
          obtain ⟨i, i', m', h, hii, hij, hp, hs, hr, hm⟩ := ih localM j hj'
          refine ⟨i + 2, i' + 2, m', h, by omega, by omega, ?_, ?_, hr, hm⟩
          · rw [List.getElem?_append_right (by simp)]
            simpa using hp
          · rw [List.getElem?_append_right (by simp)]
            simpa using hs
      · have hinst : installItem unpackOk remote localM t =
            ([Ev.unpack t true, Ev.setEntry (basename t) h0,
              Ev.persist (setAL localM (basename t) h0), Ev.deleteArchive t],
             setAL localM (basename t) h0) := by
          simp [installItem, hu, hr0]
        have hstep : (syncDrain unpackOk remote ((t, lh) :: rest) localM).1 =
            [Ev.unpack t true, Ev.setEntry (basename t) h0,
              Ev.persist (setAL localM (basename t) h0), Ev.deleteArchive t] ++
              (syncDrain unpackOk remote rest (setAL localM (basename t) h0)).1 := by
          simp [syncDrain, hinst]
        rw [hstep] at hj ⊢
        rcases j with _ | _ | _ | _ | j
        · simp at hj
        · simp at hj
        · simp at hj
        · have ht : t = target := by simpa using hj
          subst ht
          refine ⟨2, 1, setAL localM (basename t) h0, h0, by omega, by omega, ?_, ?_,
            hr0, lookupAL_setAL_self _ _ _⟩
          · rfl
          · rfl
        · rw [List.getElem?_append_right (by simp)] at hj
          have hj' : (syncDrain unpackOk remote rest
              (setAL localM (basename t) h0)).1[j]? = some (Ev.deleteArchive target) := by
            simpa using hj
          obtain ⟨i, i', m', h, hii, hij, hp, hs, hr, hm⟩ :=
            ih (setAL localM (basename t) h0) j hj'
          refine ⟨i + 4, i' + 4, m', h, by omega, by omega, ?_, ?_, hr, hm⟩
          · rw [List.getElem?_append_right (by simp)]
            simpa using hp
          · rw [List.getElem?_append_right (by simp)]
            simpa using hs

/-- Witness for C7: in the concrete one-item trace
`[unpack, setEntry, persist, deleteArchive]`, the deletion at index 3 is
preceded by the persist at index 2 and the entry update at index 1. -/
theorem c7_witness :
    ∃ i i' m' h, i' < i ∧ i < 3 ∧
      (syncDrain (fun _ => true) [("t", "hh")] [("t", "x")] []).1[i]? =
        some (Ev.persist m') ∧
      (syncDrain (fun _ => true) [("t", "hh")] [("t", "x")] []).1[i']? =
        some (Ev.setEntry (basename "t") h) ∧
      lookupAL [("t", "hh")] (basename "t") = some h ∧
      lookupAL m' (basename "t") = some h :=
  c7_persist_before_delete (fun _ => true) [("t", "hh")] [("t", "x")] [] 3 "t" (by decide)

/-! ## Claim C8: hashmap store round trip — tokenizer lemmas -/

theorem takeWhile_append_all (p : Char → Bool) (l r : List Char)
    (h : ∀ a ∈ l, p a = true) : (l ++ r).takeWhile p = l ++ r.takeWhile p := by
  induction l with
  | nil => simp
  | cons c cs ih =>
    have hc := h c (List.mem_cons_self _ _)
    simp [List.takeWhile_cons, hc, ih (fun a ha => h a (List.mem_cons_of_mem _ ha))]

theorem dropWhile_append_all (p : Char → Bool) (l r : List Char)
    (h : ∀ a ∈ l, p a = true) : (l ++ r).dropWhile p = r.dropWhile p := by
  induction l with
  | nil => simp
  | cons c cs ih =>
    have hc := h c (List.mem_cons_self _ _)
    simp [List.dropWhile_cons, hc, ih (fun a ha => h a (List.mem_cons_of_mem _ ha))]

/-- Every head of `rest` (if any) is whitespace. -/
def WsHead (rest : List Char) : Prop :=
  ∀ c, rest.head? = some c → isWsChar c = true

theorem tokens_nil : tokens [] = [] := by
  simp [tokens]

theorem tokens_ws_cons (c : Char) (l : List Char) (h : isWsChar c = true) :
    tokens (c :: l) = tokens l := by
  simp [tokens, h]

theorem tokens_cons_of_neg (c : Char) (l : List Char) (h : isWsChar c = false) :
    tokens (c :: l) =
      (c :: l.takeWhile (fun x => !isWsChar x)) ::
        tokens (l.dropWhile (fun x => !isWsChar x)) := by
  simp [tokens, h]

theorem tokens_nonws_append (n rest : List Char) (hne : n ≠ [])
    (hall : ∀ c ∈ n, isWsChar c = false) (hrest : WsHead rest) :
    tokens (n ++ rest) = n :: tokens rest := by
  cases n with
  | nil => exact absurd rfl hne
  | cons c n' =>
    have hc : isWsChar c = false := hall c (List.mem_cons_self _ _)
    have hall' : ∀ a ∈ n', (fun x => !isWsChar x) a = true := by
      intro a ha
      simp [hall a (List.mem_cons_of_mem _ ha)]
    have hrtake : rest.takeWhile (fun x => !isWsChar x) = [] := by
      cases hr : rest with
      | nil => rfl
      | cons r rs =>
        have hw := hrest r (by rw [hr]; rfl)
        simp [List.takeWhile_cons, hw]
    have hrdrop : rest.dropWhile (fun x => !isWsChar x) = rest := by
      cases hr : rest with
      | nil => rfl
      | cons r rs =>
        have hw := hrest r (by rw [hr]; rfl)
        simp [List.dropWhile_cons, hw]
    rw [List.cons_append, tokens_cons_of_neg c _ hc,
      takeWhile_append_all _ _ _ hall', dropWhile_append_all _ _ _ hall',
      hrtake, hrdrop, List.append_nil]

theorem tokens_single (n : List Char) (hne : n ≠ [])
    (hall : ∀ c ∈ n, isWsChar c = false) : tokens n = [n] := by
  have h := tokens_nonws_append n [] hne hall (fun c hc => by simp at hc)
  simpa [tokens_nil] using h

theorem dropWhile_eq_self_of_head (p : Char → Bool) (l : List Char)
    (h : ∀ c, l.head? = some c → p c = false) : l.dropWhile p = l := by
  cases l with
  | nil => rfl
  | cons c cs => simp [List.dropWhile_cons, h c rfl]

theorem stripL_eq_self (l : List Char)
    (h1 : ∀ c, l.head? = some c → isWsChar c = false)
    (h2 : ∀ c, l.getLast? = some c → isWsChar c = false) : stripL l = l := by
  unfold stripL
  rw [dropWhile_eq_self_of_head _ _ h1]
  rw [dropWhile_eq_self_of_head _ _ (fun c hc => h2 c (by rwa [List.head?_reverse] at hc))]
  exact List.reverse_reverse l

theorem tokens_line (n h : List Char) (hn : n ≠ []) (hh : h ≠ [])
    (han : ∀ c ∈ n, isWsChar c = false) (hah : ∀ c ∈ h, isWsChar c = false) :
    tokens (n ++ [Char.ofNat 32, Char.ofNat 32] ++ h) = [n, h] := by
  rw [List.append_assoc]
  rw [tokens_nonws_append n _ hn han (fun c hc => by
    simp only [List.cons_append, List.head?_cons] at hc
    cases hc
    decide)]
  rw [show ([Char.ofNat 32, Char.ofNat 32] ++ h : List Char) =
    Char.ofNat 32 :: (Char.ofNat 32 :: h) from rfl]
  rw [tokens_ws_cons _ _ (by decide), tokens_ws_cons _ _ (by decide)]
  rw [tokens_single h hh hah]

/-! ## Claim C8 — line splitting lemmas -/

theorem splitNl_cons_nl (l : List Char) :
    splitNl (Char.ofNat 10 :: l) = [] :: splitNl l := by
  simp [splitNl]

theorem splitNl_cons_of_ne (c : Char) (l : List Char) (hc : ¬c = Char.ofNat 10) :
    splitNl (c :: l) =
      match splitNl l with
      | [] => [[c]]
      | t :: ts => (c :: t) :: ts := by
  simp [splitNl, hc]

theorem splitNl_line (line rest : List Char)
    (h : ∀ c ∈ line, c ≠ Char.ofNat 10) :
    splitNl (line ++ Char.ofNat 10 :: rest) = line :: splitNl rest := by
  induction line with
  | nil => simp [splitNl_cons_nl]
  | cons c cs ih =>
    have hc : c ≠ Char.ofNat 10 := h c (List.mem_cons_self _ _)
    have ih' := ih (fun a ha => h a (List.mem_cons_of_mem _ ha))
    rw [List.cons_append, splitNl_cons_of_ne c _ hc, ih']

theorem splitNl_flatten (lines : List (List Char))
    (h : ∀ l ∈ lines, ∀ c ∈ l, c ≠ Char.ofNat 10) :
    splitNl ((lines.map (fun l => l ++ [Char.ofNat 10])).flatten) = lines ++ [[]] := by
  induction lines with
  | nil => simp [splitNl]
  | cons l ls ih =>
    rw [List.map_cons, List.flatten_cons, List.append_assoc]
    rw [show ([Char.ofNat 10] ++ ((ls.map (fun l => l ++ [Char.ofNat 10])).flatten) :
        List Char) =
      Char.ofNat 10 :: (ls.map (fun l => l ++ [Char.ofNat 10])).flatten from rfl]
    rw [splitNl_line l _ (h l (List.mem_cons_self _ _))]
    rw [ih (fun l' hl' => h l' (List.mem_cons_of_mem _ hl'))]
    rfl

theorem pyLines_flatten (lines : List (List Char))
    (h : ∀ l ∈ lines, ∀ c ∈ l, c ≠ Char.ofNat 10) :
    pyLines ((lines.map (fun l => l ++ [Char.ofNat 10])).flatten) = lines := by
  unfold pyLines
  rw [splitNl_flatten lines h]
  simp [List.getLast?_concat, List.dropLast_concat]

/-! ## Claim C8 — parsing a written line, rebuilding the dict -/

theorem toList_ne_nil (s : String) (h : s ≠ "") : s.toList ≠ [] := by
  intro hl
  apply h
  have he : String.mk s.toList = String.mk [] := by rw [hl]
  exact he

theorem lookupAL_mem_pair (m : List (String × String)) (k v : String)
    (h : lookupAL m k = some v) : (k, v) ∈ m := by
  induction m with
  | nil => simp [lookupAL] at h
  | cons p rest ih =>
    obtain ⟨a, b⟩ := p
    by_cases hp : a = k
    · subst hp
      simp [lookupAL] at h
      subst h
      exact List.mem_cons_self _ _
    · simp only [lookupAL, hp, if_false] at h
      exact List.mem_cons_of_mem _ (ih h)

theorem parseLine_lineCore (m : List (String × String)) (fn : String)
    (hfn : fn.toList ≠ []) (hhash : (lookupD m fn).toList ≠ [])
    (hwn : ∀ c ∈ fn.toList, isWsChar c = false)
    (hwh : ∀ c ∈ (lookupD m fn).toList, isWsChar c = false) :
    parseLine (lineCore m fn) = some (fn, lookupD m fn) := by
  unfold parseLine lineCore
  have h1 : ∀ c, (fn.toList ++ [Char.ofNat 32, Char.ofNat 32] ++
      (lookupD m fn).toList).head? = some c → isWsChar c = false := by
    intro c hc
    cases hl : fn.toList with
    | nil => exact absurd hl hfn
    | cons a as =>
      rw [hl] at hc
      simp only [List.cons_append, List.head?_cons, Option.some.injEq] at hc
      exact hc ▸ hwn a (hl ▸ List.mem_cons_self _ _)
  have h2 : ∀ c, (fn.toList ++ [Char.ofNat 32, Char.ofNat 32] ++
      (lookupD m fn).toList).getLast? = some c → isWsChar c = false := by
    intro c hc
    rw [List.getLast?_append_of_ne_nil _ hhash] at hc
    exact hwh c (List.mem_of_mem_getLast? hc)
  rw [stripL_eq_self _ h1 h2, tokens_line _ _ hfn hhash hwn hwh]
  rfl

theorem foldlM_parse (m : List (String × String)) (ks : List String)
    (acc : List (String × String))
    (h : ∀ fn ∈ ks, parseLine (lineCore m fn) = some (fn, lookupD m fn)) :
    (ks.map (lineCore m)).foldlM
        (fun a l => (parseLine l).map (fun p => setAL a p.1 p.2)) acc =
      some (ks.foldl (fun a fn => setAL a fn (lookupD m fn)) acc) := by
  induction ks generalizing acc with
  | nil => rfl
  | cons fn ks' ih =>
    rw [List.map_cons]
    have hstep := h fn (List.mem_cons_self _ _)
    have hbind : ((lineCore m fn :: ks'.map (lineCore m)).foldlM
        (fun a l => (parseLine l).map (fun p => setAL a p.1 p.2)) acc) =
        ((parseLine (lineCore m fn)).map (fun p => setAL acc p.1 p.2)).bind
          (fun b => (ks'.map (lineCore m)).foldlM
            (fun a l => (parseLine l).map (fun p => setAL a p.1 p.2)) b) := rfl
    rw [hbind, hstep]
    show (ks'.map (lineCore m)).foldlM _ (setAL acc fn (lookupD m fn)) = _
    rw [ih _ (fun a ha => h a (List.mem_cons_of_mem _ ha))]
    rfl

theorem setAL_append_of_not_mem (m : List (String × String)) (k v : String)
    (h : k ∉ keysOf m) : setAL m k v = m ++ [(k, v)] := by
  induction m with
  | nil => rfl
  | cons p rest ih =>
    rw [keysOf_cons] at h
    have hne : p.1 ≠ k := fun e => h (e ▸ List.mem_cons_self _ _)
    have hrest : k ∉ keysOf rest := fun hm => h (List.mem_cons_of_mem _ hm)
    simp [setAL, hne, ih hrest]

theorem foldl_setAL_eq (g : String → String) (ks : List String)
    (acc : List (String × String)) (hnd : ks.Nodup)
    (hdis : ∀ fn ∈ ks, fn ∉ keysOf acc) :
    ks.foldl (fun a fn => setAL a fn (g fn)) acc =
      acc ++ ks.map (fun fn => (fn, g fn)) := by
  induction ks generalizing acc with
  | nil => simp
  | cons k ks' ih =>
    have hdisk : ∀ fn ∈ ks', fn ∉ keysOf (acc ++ [(k, g k)]) := by
      intro fn hfn hmem
      unfold keysOf at hmem
      rw [List.map_append] at hmem
      rcases List.mem_append.mp hmem with hm | hm
      · exact hdis fn (List.mem_cons_of_mem _ hfn) hm
      · simp only [List.map_cons, List.map_nil, List.mem_singleton] at hm
        subst hm
        exact (List.nodup_cons.mp hnd).1 hfn
    rw [List.foldl_cons, setAL_append_of_not_mem _ _ _ (hdis k (List.mem_cons_self _ _))]
    rw [ih _ (List.Nodup.of_cons hnd) hdisk]
    simp [List.append_assoc]

theorem lookupAL_map_pair (ks : List String) (g : String → String) (k : String) :
    lookupAL (ks.map (fun fn => (fn, g fn))) k =
      if k ∈ ks then some (g k) else none := by
  induction ks with
  | nil => simp [lookupAL]
  | cons a as ih =>
    by_cases ha : a = k
    · subst ha
      simp [lookupAL]
    · have hka : ¬k = a := fun e => ha e.symm
      simp [lookupAL, ha, ih, List.mem_cons, hka]

theorem loadChars_saveChars (m : List (String × String))
    (hprops : ∀ fn ∈ keysOf m, fn.toList ≠ [] ∧ (lookupD m fn).toList ≠ [] ∧
      (∀ c ∈ fn.toList, isWsChar c = false) ∧
      (∀ c ∈ (lookupD m fn).toList, isWsChar c = false)) :
    loadChars (saveChars m) =
      some ((sortedKeys m).foldl (fun a fn => setAL a fn (lookupD m fn)) []) := by
  have hmemk : ∀ fn ∈ sortedKeys m, fn ∈ keysOf m := by
    intro fn hfn
    exact (List.perm_insertionSort _ (keysOf m)).mem_iff.mp hfn
  have hnl : ∀ l ∈ (sortedKeys m).map (lineCore m), ∀ c ∈ l, c ≠ Char.ofNat 10 := by
    intro l hl c hc
    obtain ⟨fn, hfn, rfl⟩ := List.mem_map.mp hl
    obtain ⟨_, _, hwn, hwh⟩ := hprops fn (hmemk fn hfn)
    unfold lineCore at hc
    intro he
    subst he
    rcases List.mem_append.mp hc with hc' | hc'
    · rcases List.mem_append.mp hc' with hc'' | hc''
      · have := hwn _ hc''
        simp [isWsChar] at this
      · simp at hc''
    · have := hwh _ hc'
      simp [isWsChar] at this
  have hsave : saveChars m =
      (((sortedKeys m).map (lineCore m)).map (fun l => l ++ [Char.ofNat 10])).flatten := by
    unfold saveChars
    rw [List.map_map]
    rfl
  unfold loadChars
  rw [hsave, pyLines_flatten _ hnl]
  exact foldlM_parse m (sortedKeys m) [] (fun fn hfn => by
    obtain ⟨h1, h2, h3, h4⟩ := hprops fn (hmemk fn hfn)
    exact parseLine_lineCore m fn h1 h2 h3 h4)

/-- Claim C8.  For a manifest whose names and hashes are non-empty and
whitespace-free, loading after saving yields the same mapping; the saved
file is one `name␣␣hash\n` line per artifact with the lines sorted by
artifact name. -/
theorem c8_roundtrip_sorted_format (m : List (String × String))
    (hnd : (keysOf m).Nodup)
    (hok : ∀ p ∈ m, p.1 ≠ "" ∧ p.2 ≠ "" ∧ (∀ c ∈ p.1.toList, isWsChar c = false) ∧
      (∀ c ∈ p.2.toList, isWsChar c = false)) :
    (∃ m', load_local_hashmap (write_local_hashmap m) = some m' ∧
      ∀ k, lookupAL m' k = lookupAL m k) ∧
    write_local_hashmap m = String.mk (((sortedKeys m).map
      (fun fn => fn.toList ++ [Char.ofNat 32, Char.ofNat 32] ++
        (lookupD m fn).toList ++ [Char.ofNat 10])).flatten) ∧
    List.Sorted (fun a b => a ≤ b) (sortedKeys m) ∧
    (sortedKeys m).Perm (keysOf m) := by
  have hperm : (sortedKeys m).Perm (keysOf m) := List.perm_insertionSort _ _
  have hprops : ∀ fn ∈ keysOf m, fn.toList ≠ [] ∧ (lookupD m fn).toList ≠ [] ∧
      (∀ c ∈ fn.toList, isWsChar c = false) ∧
      (∀ c ∈ (lookupD m fn).toList, isWsChar c = false) := by
    intro fn hfn
    obtain ⟨v, hv⟩ := lookupAL_isSome_of_mem_keys m fn hfn
    have hd : lookupD m fn = v := by simp [lookupD, hv]
    obtain ⟨e1, e2, e3, e4⟩ := hok (fn, v) (lookupAL_mem_pair m fn v hv)
    exact ⟨toList_ne_nil fn e1, hd ▸ toList_ne_nil v e2, e3, hd ▸ e4⟩
  refine ⟨?_, rfl, List.sorted_insertionSort _ _, hperm⟩
  refine ⟨(sortedKeys m).map (fun fn => (fn, lookupD m fn)), ?_, ?_⟩
  · show loadChars (saveChars m) = _
    rw [loadChars_saveChars m hprops]
    rw [foldl_setAL_eq (lookupD m) (sortedKeys m) []
      (hperm.nodup_iff.mpr hnd) (fun fn _ => by simp [keysOf])]
    rfl
  · intro k
    rw [lookupAL_map_pair]
    by_cases hk : k ∈ keysOf m
    · obtain ⟨v, hv⟩ := lookupAL_isSome_of_mem_keys m k hk
      rw [if_pos (hperm.mem_iff.mpr hk), hv]
      simp [lookupD, hv]
    · rw [if_neg (fun hm => hk (hperm.mem_iff.mp hm)),
        lookupAL_eq_none_of_not_mem_keys m k hk]

/-- Witness for C8: the two-entry manifest `est ↦ a1b2, nr ↦ ffff` survives
the save/load round trip and is written sorted. -/
theorem c8_witness :
    (∃ m', load_local_hashmap (write_local_hashmap [("nr", "ffff"), ("est", "a1b2")]) =
        some m' ∧
      ∀ k, lookupAL m' k = lookupAL [("nr", "ffff"), ("est", "a1b2")] k) ∧
    List.Sorted (fun a b => a ≤ b) (sortedKeys [("nr", "ffff"), ("est", "a1b2")]) := by
  have h := c8_roundtrip_sorted_format [("nr", "ffff"), ("est", "a1b2")]
    (by decide) (by decide)
  exact ⟨h.1, h.2.2.1⟩

end NcbiBlastDb
